import Mathlib

/-!
Verification development for the blockchain smart-contract generation
system: a shallow embedding of the ledger model (`Block`, `Transaction`,
hashing, mining, chain validation) and of the history content store
(`save`, `loadAll`, `rebuildPdf`), with theorems settling the frozen
claims about the specification.

The external SHA-256 primitive (CryptoJS / crypto.subtle) is not part of
the repository; all hashing code is therefore parametrised by an abstract
digest function `H : String → String` (resp. `Hb : List Nat → String` for
byte buffers), exactly as the source code treats it: an opaque
deterministic function producing a hex string.
-/

set_option autoImplicit false

namespace SCGS

/-! ## Characters and decimal digits (JS number serialization) -/

/-- Decimal digit character, `digitChar d` for `d < 10`. -/
def digitChar (d : Nat) : Char := Char.ofNat (48 + d)

/-- Decimal representation of a natural number, as produced by
`JSON.stringify` for non-negative integer JS numbers. -/
def natToChars (n : Nat) : List Char :=
  if _h : n < 10 then [digitChar n]
  else natToChars (n / 10) ++ [digitChar (n % 10)]
decreasing_by exact Nat.div_lt_self (by omega) (by omega)

/-- Reads back a decimal digit string (left fold, most significant first). -/
def charsToNat (l : List Char) : Nat :=
  l.foldl (fun a c => a * 10 + (c.toNat - 48)) 0

/-- Serialization of a JS integer number. -/
def jnumChars (i : Int) : List Char :=
  if i < 0 then '-' :: natToChars i.natAbs else natToChars i.toNat

/-- JSON string escaping for one character (the subset exercised by the
system: quote and backslash get a backslash, all other characters are
emitted verbatim). -/
def escChar (c : Char) : List Char :=
  if c = '"' ∨ c = '\\' then ['\\', c] else [c]

/-- JSON string escaping of a character sequence. -/
def escChars : List Char → List Char
  | [] => []
  | c :: rest => escChar c ++ escChars rest

/-! ## JSON values

`JSON.stringify` in JavaScript serializes object keys in insertion order;
objects are therefore modelled as ordered association lists. -/

/-- A JSON value as manipulated by the JavaScript code. Object fields are
kept in insertion order, exactly as `JSON.stringify` emits them. -/
inductive Json where
  | null : Json
  | bool : Bool → Json
  | num : Int → Json
  | str : String → Json
  | arr : List Json → Json
  | obj : List (String × Json) → Json

mutual

/-- Character stream produced by `JSON.stringify` on a `Json` value. -/
def jsonChars : Json → List Char
  | Json.null => ['n', 'u', 'l', 'l']
  | Json.bool true => ['t', 'r', 'u', 'e']
  | Json.bool false => ['f', 'a', 'l', 's', 'e']
  | Json.num i => jnumChars i
  | Json.str s => '"' :: (escChars s.data ++ ['"'])
  | Json.arr xs => '[' :: (arrChars xs ++ [']'])
  | Json.obj fs => Char.ofNat 123 :: (objChars fs ++ [Char.ofNat 125])

/-- Comma-separated serialization of array elements. -/
def arrChars : List Json → List Char
  | [] => []
  | [x] => jsonChars x
  | x :: y :: rest => jsonChars x ++ ',' :: arrChars (y :: rest)

/-- Comma-separated serialization of object fields, keys in list order. -/
def objChars : List (String × Json) → List Char
  | [] => []
  | [(k, v)] => '"' :: (escChars k.data ++ '"' :: ':' :: jsonChars v)
  | (k, v) :: f :: rest =>
      ('"' :: (escChars k.data ++ '"' :: ':' :: jsonChars v)) ++
        ',' :: objChars (f :: rest)

end

/-- `JSON.stringify` of a `Json` value, as a string. -/
def jsonStr (j : Json) : String := String.mk (jsonChars j)

/-! ## Transactions (js/models.js, class Transaction) -/

/-- Transaction metadata object, in constructor insertion order
(models.js, Transaction constructor). `blockHash`, `blockIndex` and
`transactionIndex` default to JSON `null`. -/
structure TxMeta where
  gasPrice : Int
  gasLimit : Int
  gasUsed : Int
  blockHash : Json
  blockIndex : Json
  transactionIndex : Json

/-- The Transaction model (models.js). `fromAddr` and `toAddr` embed the JS fields
`from` and `to` (Lean keywords). `data` is the opaque structured payload copied
verbatim by the constructor; `signature` is JSON `null` until signed. -/
structure Transaction where
  id : String
  createdAt : String
  updatedAt : String
  version : Nat
  type : String
  fromAddr : String
  toAddr : String
  amount : Int
  fee : Int
  data : Json
  signature : Json
  status : String
  metadata : TxMeta

/-- `tx.toJSON()` = `JSON.parse(JSON.stringify(tx))`: the transaction's own
fields in constructor insertion order (BaseModel fields first). -/
def txToJson (t : Transaction) : Json :=
  Json.obj [("id", Json.str t.id),
            ("createdAt", Json.str t.createdAt),
            ("updatedAt", Json.str t.updatedAt),
            ("version", Json.num t.version),
            ("type", Json.str t.type),
            ("from", Json.str t.fromAddr),
            ("to", Json.str t.toAddr),
            ("amount", Json.num t.amount),
            ("fee", Json.num t.fee),
            ("data", t.data),
            ("signature", t.signature),
            ("status", Json.str t.status),
            ("metadata", Json.obj
              [("gasPrice", Json.num t.metadata.gasPrice),
               ("gasLimit", Json.num t.metadata.gasLimit),
               ("gasUsed", Json.num t.metadata.gasUsed),
               ("blockHash", t.metadata.blockHash),
               ("blockIndex", t.metadata.blockIndex),
               ("transactionIndex", t.metadata.transactionIndex)])]

/-- `Transaction.validate()`: requires nonempty `from` and `to` and
non-negative `amount` and `fee` (models.js). -/
def txValid (t : Transaction) : Bool :=
  ¬ t.fromAddr = "" ∧ ¬ t.toAddr = "" ∧ 0 ≤ t.amount ∧ 0 ≤ t.fee

/-! ## Blocks (js/models.js, class Block) -/

/-- Block metadata object (models.js, Block constructor). -/
structure BlockMeta where
  size : Nat
  transactionCount : Nat
  merkleRoot : String
  gasUsed : Nat
  gasLimit : Nat

/-- The Block model (models.js). BaseModel fields (`id`, `createdAt`,
`updatedAt`, `version`) are included because `addTransaction` touches
them. -/
structure Block where
  id : String
  createdAt : String
  updatedAt : String
  version : Nat
  index : Nat
  timestamp : String
  previousHash : String
  hash : String
  nonce : Nat
  difficulty : Nat
  transactions : List Transaction
  metadata : BlockMeta

/-- The object hashed by `Block.calculateHash()` (models.js): exactly the
fields `index`, `timestamp`, `previousHash`, `transactions` (via
`toJSON`), `nonce`, serialized in that key order. -/
def blockHashData (b : Block) : Json :=
  Json.obj [("index", Json.num b.index),
            ("timestamp", Json.str b.timestamp),
            ("previousHash", Json.str b.previousHash),
            ("transactions", Json.arr (b.transactions.map txToJson)),
            ("nonce", Json.num b.nonce)]

/-- `Block.calculateHash()` = `CryptoJS.SHA256(JSON.stringify(data))`,
with the external SHA-256 primitive as parameter `H`. -/
def calculateHash (H : String → String) (b : Block) : String :=
  H (jsonStr (blockHashData b))

/-- Block constructor (models.js): `hash` is taken from the input when
provided, otherwise computed with `calculateHash` on the freshly
assembled fields. -/
def mkBlock (H : String → String) (id createdAt : String) (index : Nat)
    (timestamp previousHash : String) (hash : Option String)
    (nonce difficulty : Nat) (transactions : List Transaction)
    (metadata : BlockMeta) : Block :=
  let base : Block :=
    { id := id, createdAt := createdAt, updatedAt := createdAt, version := 1,
      index := index, timestamp := timestamp, previousHash := previousHash,
      hash := "", nonce := nonce, difficulty := difficulty,
      transactions := transactions, metadata := metadata }
  match hash with
  | some h => { base with hash := h }
  | none => { base with hash := calculateHash H base }

/-- The proof-of-work target test of `mineBlock` (models.js): the hash's
first `d` characters must all be `'0'` (`substring` clamps, as
`List.take` does). -/
def meetsDifficulty (d : Nat) (h : String) : Bool :=
  h.data.take d = List.replicate d '0'

/-- One iteration of the mining loop body: `this.nonce++;
this.hash = this.calculateHash()` (models.js). `calculateHash` does not
read `hash`, so recomputation sees the incremented nonce only. -/
def mineStep (H : String → String) (b : Block) : Block :=
  { b with nonce := b.nonce + 1,
           hash := calculateHash H { b with nonce := b.nonce + 1 } }

/-- `Block.mineBlock(difficulty)` (models.js): an unbounded `while` loop
that retests the current hash and re-mines with an incremented nonce; on
exit it records the difficulty. The JS loop has no bound whatsoever; the
`fuel` argument only lets the partial loop be expressed as a total
function: `none` means the loop is still running after `fuel`
iterations. -/
def mineLoop (H : String → String) (d : Nat) : Nat → Block → Option Block
  | 0, _ => none
  | fuel + 1, b =>
      if meetsDifficulty d b.hash then some { b with difficulty := d }
      else mineLoop H d fuel (mineStep H b)

/-- `Block.addTransaction(tx)` (models.js): validates the transaction
(throwing — here `none` — when invalid), pushes it, updates the
transaction count and touches the base model. The stored `hash` is left
untouched. -/
def addTransaction (now : String) (b : Block) (t : Transaction) :
    Option Block :=
  if txValid t then
    some { b with transactions := b.transactions ++ [t],
                  metadata := { b.metadata with
                    transactionCount := b.transactions.length + 1 },
                  updatedAt := now, version := b.version + 1 }
  else none

/-- `Block.validate()` (models.js): the stored hash must equal the
recomputed hash and every contained transaction must validate. -/
def blockValid (H : String → String) (b : Block) : Bool :=
  b.hash = calculateHash H b ∧ ∀ t ∈ b.transactions, txValid t

/-! ## Chain validation

Modelled from the spec: the repository's chain-level `Blockchain` class
(`createBlock` / `isChainValid` with a first-invalid-block diagnostic) is
not among the source files — only its tests and call sites are. Following
spec §4.3, validation recomputes each block's hash from its stored fields
(via `Block.calculateHash` from the source) and compares it with the
stored hash, and separately checks that each non-genesis block's
`previousHash` equals the prior block's stored hash; the first failing
block's index is reported. -/

/-- Modelled from the spec: scan of the chain returning the index of the
first block failing the hash-recomputation or linkage check (`prev` is
the previous block, absent at the genesis position). -/
def chainScan (H : String → String) :
    Option Block → List Block → Nat → Option Nat
  | _, [], _ => none
  | prev, b :: rest, i =>
      if ¬ b.hash = calculateHash H b then some i
      else
        match prev with
        | some p =>
            if ¬ b.previousHash = p.hash then some i
            else chainScan H (some b) rest (i + 1)
        | none => chainScan H (some b) rest (i + 1)

/-- Modelled from the spec: `isChainValid()` with diagnostics — `true`
with no index when every check passes, otherwise `false` together with
the index of the first invalid block. -/
def isChainValid (H : String → String) (chain : List Block) :
    Bool × Option Nat :=
  match chainScan H none chain 0 with
  | none => (true, none)
  | some i => (false, some i)

/-! ## Smart contracts (js/models.js, class SmartContract) -/

/-- One contract party (models.js, SmartContract constructor);
`signature` is JSON `null` until `sign` is called. -/
structure Party where
  name : String
  address : String
  contact : String
  signature : Json

/-- Contract terms (models.js). The three lists are caller-supplied
arrays copied verbatim by the constructor. -/
structure Terms where
  content : String
  conditions : List Json
  obligations : List Json
  penalties : List Json

/-- Contract financial information (models.js). -/
structure Financial where
  value : Int
  currency : String
  paymentTerms : String
  paymentSchedule : List Json

/-- Contract timeline (models.js); the dates default to JSON `null`. -/
structure Timeline where
  startDate : Json
  endDate : Json
  duration : Int
  milestones : List Json

/-- The SmartContract model (models.js), restricted to the fields read by
`calculateHash` plus representative non-hashed fields (`type`,
`description`, `status`). -/
structure SmartContract where
  id : String
  title : String
  type : String
  description : String
  status : String
  party1 : Party
  party2 : Party
  terms : Terms
  financial : Financial
  timeline : Timeline

/-- Serialization of a party, keys in constructor insertion order. -/
def partyToJson (p : Party) : Json :=
  Json.obj [("name", Json.str p.name),
            ("address", Json.str p.address),
            ("contact", Json.str p.contact),
            ("signature", p.signature)]

/-- The object hashed by `SmartContract.calculateHash()` (models.js):
exactly `title`, `parties`, `terms`, `financial`, `timeline`, each
serialized with the constructor's fixed key order. -/
def scHashData (c : SmartContract) : Json :=
  Json.obj [("title", Json.str c.title),
            ("parties", Json.obj [("party1", partyToJson c.party1),
                                  ("party2", partyToJson c.party2)]),
            ("terms", Json.obj
              [("content", Json.str c.terms.content),
               ("conditions", Json.arr c.terms.conditions),
               ("obligations", Json.arr c.terms.obligations),
               ("penalties", Json.arr c.terms.penalties)]),
            ("financial", Json.obj
              [("value", Json.num c.financial.value),
               ("currency", Json.str c.financial.currency),
               ("paymentTerms", Json.str c.financial.paymentTerms),
               ("paymentSchedule", Json.arr c.financial.paymentSchedule)]),
            ("timeline", Json.obj
              [("startDate", c.timeline.startDate),
               ("endDate", c.timeline.endDate),
               ("duration", Json.num c.timeline.duration),
               ("milestones", Json.arr c.timeline.milestones)])]

/-- `SmartContract.calculateHash()` (models.js), with the external
SHA-256 primitive as parameter `H`. -/
def scCalculateHash (H : String → String) (c : SmartContract) : String :=
  H (jsonStr (scHashData c))

/-! ## Configuration (js/config.js) -/

/-- `CONFIG.blockchain.mining.maxNonce` (js/config.js). -/
def miningMaxNonce : Nat := 1000000

/-- The recency-index capacity hardcoded in `save`
(js/history-storage.js: `if(index.length > 500) index.length = 500`). -/
def indexCap : Nat := 500

/-! ## Base64 (the browser `btoa`/`atob` primitives)

In `save`, bytes are turned into a binary string with
`String.fromCharCode` and encoded with `btoa`; `rebuildPdf` decodes with
`atob` and `charCodeAt`. The net effect on the byte sequence is standard
base64 encoding and decoding, modelled concretely here. -/

/-- The base64 alphabet, `b64alpha v` for `v < 64`. -/
def b64alpha (v : Nat) : Char :=
  if v < 26 then Char.ofNat (65 + v)
  else if v < 52 then Char.ofNat (97 + (v - 26))
  else if v < 62 then Char.ofNat (48 + (v - 52))
  else if v = 62 then '+' else '/'

/-- Value of a base64 alphabet character. -/
def b64val (c : Char) : Nat :=
  if 65 ≤ c.toNat ∧ c.toNat ≤ 90 then c.toNat - 65
  else if 97 ≤ c.toNat ∧ c.toNat ≤ 122 then c.toNat - 97 + 26
  else if 48 ≤ c.toNat ∧ c.toNat ≤ 57 then c.toNat - 48 + 52
  else if c = '+' then 62 else 63

/-- Base64 encoding of a byte sequence (`btoa` on the binary string). -/
def b64enc : List Nat → List Char
  | [] => []
  | [b0] => [b64alpha (b0 / 4), b64alpha (b0 % 4 * 16), '=', '=']
  | [b0, b1] => [b64alpha (b0 / 4), b64alpha (b0 % 4 * 16 + b1 / 16),
                 b64alpha (b1 % 16 * 4), '=']
  | b0 :: b1 :: b2 :: rest =>
      b64alpha (b0 / 4) :: b64alpha (b0 % 4 * 16 + b1 / 16) ::
        b64alpha (b1 % 16 * 4 + b2 / 64) :: b64alpha (b2 % 64) :: b64enc rest

/-- Base64 decoding of a character sequence (`atob` plus `charCodeAt`);
`none` models the exception `atob` raises on malformed input. -/
def b64dec : List Char → Option (List Nat)
  | [] => some []
  | c0 :: c1 :: c2 :: c3 :: rest =>
      if c2 = '=' then
        if rest = [] ∧ c3 = '=' then
          some [b64val c0 * 4 + b64val c1 / 16]
        else none
      else if c3 = '=' then
        if rest = [] then
          some [b64val c0 * 4 + b64val c1 / 16,
                b64val c1 % 16 * 16 + b64val c2 / 4]
        else none
      else
        match b64dec rest with
        | some bs =>
            some ((b64val c0 * 4 + b64val c1 / 16) ::
                  (b64val c1 % 16 * 16 + b64val c2 / 4) ::
                  (b64val c2 % 4 * 64 + b64val c3) :: bs)
        | none => none
  | _ => none

/-! ## The history content store (js/history-storage.js)

`localStorage` is modelled as an association list from record id to
record (`setItem` prepends, `getItem` takes the first match), together
with the separate index entry. The external byte digest
`crypto.subtle.digest('SHA-256', ...)` is the parameter `Hb`. -/

/-- The `meta` argument of `save`; absent JS fields are `none`. -/
structure StoreMeta where
  template : Option String
  templateKey : Option String
  fileName : Option String
  fields : Option Json

/-- A persisted contract record (the object built by `save`). -/
structure StoreRecord where
  id : String
  template : String
  fileName : String
  createdAt : Nat
  size : Nat
  sha256 : String
  fields : Json
  chainStatus : String
  pdfBase64 : Option String

/-- The persistent state of the history store: the record entries and the
index entry of `localStorage`. -/
structure StoreState where
  records : List (String × StoreRecord)
  index : List String

/-- `localStorage.getItem`: first entry with the given key. -/
def kvGet {α : Type} : List (String × α) → String → Option α
  | [], _ => none
  | (k, v) :: rest, key => if k = key then some v else kvGet rest key

/-- The duplicate scan of `save`: walk the index in order, read each
record, and return the first id whose stored `sha256` equals the new
content hash (ids with no backing record are passed over, as
`JSON.parse(... || 'null')` yields `null` for them). -/
def scanDup (records : List (String × StoreRecord)) :
    List String → String → Option String
  | [], _ => none
  | rid :: rest, h =>
      match kvGet records rid with
      | some r => if r.sha256 = h then some rid else scanDup records rest h
      | none => scanDup records rest h

/-- The record object `save` assembles before the duplicate scan
(js/history-storage.js): metadata fallbacks, byte count, content digest
and the base64-encoded payload (`storePdfBase64` is hardcoded true). -/
def mkStoreRecord (Hb : List Nat → String) (freshId : String) (now : Nat)
    (meta : StoreMeta) (bytes : List Nat) : StoreRecord :=
  { id := freshId,
    template := ((meta.template).orElse fun _ => meta.templateKey).getD
      "unknown",
    fileName := (meta.fileName).getD (freshId ++ ".pdf"),
    createdAt := now,
    size := bytes.length,
    sha256 := Hb bytes,
    fields := (meta.fields).getD (Json.obj []),
    chainStatus := "not_submitted",
    pdfBase64 := some (String.mk (b64enc bytes)) }

/-- `save(meta, arrayBuffer)` (js/history-storage.js). `blob = none`
models a missing (`null`/`undefined`) `arrayBuffer` — the guard
`if(!arrayBuffer)` returns `null` without touching storage; note an empty
`ArrayBuffer` is an object and therefore truthy in JS, so it passes the
guard. `freshId` stands for the generated `'CR_' + Date.now() + ...` id
and `now` for `Date.now()`. On a duplicate hash the existing id is
returned with no write; otherwise the record is persisted, the id is
prepended to the index and the index is truncated to 500 entries. -/
def save (Hb : List Nat → String) (st : StoreState) (freshId : String)
    (now : Nat) (meta : StoreMeta) (blob : Option (List Nat)) :
    Option String × StoreState :=
  match blob with
  | none => (none, st)
  | some bytes =>
    let hash := Hb bytes
    let record : StoreRecord := mkStoreRecord Hb freshId now meta bytes
    match scanDup st.records st.index hash with
    | some rid => (some rid, st)
    | none =>
      let index1 := freshId :: st.index
      let index2 := if index1.length > indexCap then index1.take indexCap
                    else index1
      (some freshId, { records := (freshId, record) :: st.records,
                       index := index2 })

/-- `loadAll()` (js/history-storage.js): read the index, resolve each id
in order, pushing the records that exist and skipping the ids whose
backing record is missing. -/
def loadAll (st : StoreState) : List StoreRecord :=
  st.index.foldl
    (fun arr id =>
      match kvGet st.records id with
      | some r => arr ++ [r]
      | none => arr) []

/-- `rebuildPdf(record)` (js/history-storage.js): the guard
`if(record.pdfBase64)` is JS truthiness — it rejects an absent field and
also the empty string (what `btoa('')` yields for an empty blob),
returning `null` for either; otherwise the stored base64 payload is
decoded. -/
def rebuildPdf (r : StoreRecord) : Option (List Nat) :=
  match r.pdfBase64 with
  | some s => if s.data = [] then none else b64dec s.data
  | none => none

/-! ## Auxiliary definitions used by the theorems -/

/-- All entries of a byte list are bytes (ArrayBuffer contents). -/
def allBytes (l : List Nat) : Prop := ∀ x ∈ l, x < 256

/-- Store well-formedness: every persisted record that carries an encoded
payload decodes to a byte buffer whose digest is the record's stored
`sha256`. `save` establishes this for every record it writes. -/
def storeWF (Hb : List Nat → String) (st : StoreState) : Prop :=
  ∀ id r, kvGet st.records id = some r →
    ∀ s, r.pdfBase64 = some s →
      ∃ bs, b64dec s.data = some bs ∧ allBytes bs ∧ Hb bs = r.sha256

/-- The previous block after walking `pre` starting from `prev`
(bookkeeping for the chain-scan lemmas). -/
def lastOr (prev : Option Block) : List Block → Option Block
  | [] => prev
  | x :: xs => lastOr (some x) xs

/-- Reads the trailing decimal run of a serialized block-hash payload:
the serialization of `blockHashData` always ends with the digits of the
nonce followed by a closing brace. -/
def extractNonce (s : String) : Nat :=
  charsToNat (((s.data.reverse.drop 1).takeWhile Char.isDigit).reverse)

/-- Identity digest stand-in: an admissible instantiation of the
abstract external hash primitive (any deterministic `String → String`
function), convenient because it is injective and computable. -/
def idH : String → String := fun s => s

/-- Digest stand-in whose output has the difficulty-4 proof-of-work
prefix exactly when the hashed payload's nonce equals `K`: mining with it
first succeeds at nonce `K`. -/
def mineH (K : Nat) : String → String := fun s =>
  if extractNonce s = K then String.mk (List.replicate 4 '0')
  else String.mk ['f']

/-- Byte-digest stand-in given by base64 encoding (injective on byte
lists thanks to the decode round trip). -/
def b64H : List Nat → String := fun l => String.mk (b64enc l)

/-- Descending list `[n-1, ..., 1, 0]`. -/
def revRange : Nat → List Nat
  | 0 => []
  | n + 1 => n :: revRange n

/-- Empty block metadata for the concrete examples. -/
def bmeta0 : BlockMeta :=
  { size := 0, transactionCount := 0, merkleRoot := "", gasUsed := 0,
    gasLimit := 1000000 }

/-- Default transaction metadata for the concrete examples. -/
def tmeta0 : TxMeta :=
  { gasPrice := 0, gasLimit := 21000, gasUsed := 0, blockHash := Json.null,
    blockIndex := Json.null, transactionIndex := Json.null }

/-- A valid concrete transaction parameterised by its opaque `data`
payload. -/
def txWith (d : Json) : Transaction :=
  { id := "t1", createdAt := "t", updatedAt := "t", version := 1,
    type := "transfer", fromAddr := "a", toAddr := "b", amount := 5,
    fee := 0, data := d, signature := Json.null, status := "pending",
    metadata := tmeta0 }

/-- Concrete genesis block (hash computed by the constructor). -/
def gBlock : Block :=
  mkBlock idH "g" "t0" 0 "t0" "0" none 0 4 [] bmeta0

/-- Concrete position-1 block linked to `gBlock`, carrying the
transactions `ts` (hash computed by the constructor). -/
def block1 (ts : List Transaction) : Block :=
  mkBlock idH "b1" "t1" 1 "t1" gBlock.hash none 0 4 ts bmeta0

/-- Object fields used for the key-insertion-order counterexample. -/
def c5fields : List (String × Json) :=
  [("a", Json.num 1), ("b", Json.num 2)]

/-- Starting block of the mining demonstration (constructor-built, hash
computed with `mineH K`, nonce 0). -/
def mineStart (K : Nat) : Block :=
  mkBlock (mineH K) "m" "t0" 1 "t1" "0" none 0 4 [] bmeta0

/-- Block state of the mining demonstration once the nonce has been
driven up to `j`. -/
def mineAt (K j : Nat) : Block :=
  let base : Block := { (mineStart K) with nonce := j }
  { base with hash := calculateHash (mineH K) base }

/-- Record id `"id<k>"` of the store-capacity counterexample. -/
def c3id (k : Nat) : String := String.mk ('i' :: 'd' :: natToChars k)

/-- Stored record of the store-capacity counterexample (all records share
the digest `"x"`, distinct from anything `c3Hb` produces). -/
def c3rec (k : Nat) : StoreRecord :=
  { id := c3id k, template := "unknown", fileName := "f.pdf",
    createdAt := 0, size := 1, sha256 := "x", fields := Json.obj [],
    chainStatus := "not_submitted", pdfBase64 := none }

/-- Record entries `id<n-1> ... id<0>` of the capacity counterexample. -/
def c3records (n : Nat) : List (String × StoreRecord) :=
  (revRange n).map fun k => (c3id k, c3rec k)

/-- Index (most recent first) of the capacity counterexample. -/
def c3index (n : Nat) : List String := (revRange n).map c3id

/-- A store holding exactly 500 distinct records, at the index cap. -/
def c3st : StoreState := { records := c3records 500, index := c3index 500 }

/-- Constant byte-digest stand-in used by the capacity counterexample
(its output `"h"` differs from every stored `"x"`). -/
def c3Hb : List Nat → String := fun _ => "h"

/-- Empty save metadata. -/
def meta0 : StoreMeta :=
  { template := none, templateKey := none, fileName := none, fields := none }

/-- Empty store. -/
def emptyStore : StoreState := { records := [], index := [] }

/-- A concrete smart contract for the determinism witness. -/
def scDemo : SmartContract :=
  { id := "c1", title := "Test Contract", type := "general",
    description := "", status := "draft",
    party1 := { name := "A", address := "", contact := "",
                signature := Json.null },
    party2 := { name := "B", address := "", contact := "",
                signature := Json.null },
    terms := { content := "", conditions := [], obligations := [],
               penalties := [] },
    financial := { value := 0, currency := "CNY", paymentTerms := "",
                   paymentSchedule := [] },
    timeline := { startDate := Json.null, endDate := Json.null,
                  duration := 0, milestones := [] } }

/-- One-record store for the capacity-bound witness. -/
def c3small : StoreState :=
  { records := [(c3id 1, c3rec 1)], index := [c3id 1] }

/-- The record `save` builds for the round-trip witness (blob `[1,2,3]`,
digest `b64H`, empty metadata, id `"CR_1"`, time 0). -/
def c8rec : StoreRecord := mkStoreRecord b64H "CR_1" 0 meta0 [1, 2, 3]

/-! ## Theorems -/

/-! ### Decimal digit lemmas -/

theorem digitChar_isDigit : ∀ d, d < 10 → (digitChar d).isDigit = true := by
  decide

theorem digitChar_toNat : ∀ d, d < 10 → (digitChar d).toNat = 48 + d := by
  decide

theorem natToChars_ne_nil (n : Nat) : natToChars n ≠ [] := by
  rw [natToChars]; split <;> simp

theorem natToChars_digits (n : Nat) :
    ∀ c ∈ natToChars n, c.isDigit = true := by
  induction n using Nat.strong_induction_on with
  | _ n ih =>
    rw [natToChars]
    split
    · next h => simpa using digitChar_isDigit n h
    · next h =>
      intro c hc
      rcases List.mem_append.1 hc with h1 | h1
      · exact ih (n / 10) (Nat.div_lt_self (by omega) (by omega)) c h1
      · simp only [List.mem_singleton] at h1
        subst h1
        exact digitChar_isDigit _ (Nat.mod_lt _ (by omega))

theorem charsToNat_append_one (l : List Char) (c : Char) :
    charsToNat (l ++ [c]) = charsToNat l * 10 + (c.toNat - 48) := by
  simp [charsToNat, List.foldl_append]

theorem charsToNat_natToChars (n : Nat) : charsToNat (natToChars n) = n := by
  induction n using Nat.strong_induction_on with
  | _ n ih =>
    rw [natToChars]
    split
    · next h =>
      simp [charsToNat, digitChar_toNat n h]
    · next h =>
      rw [charsToNat_append_one,
        ih (n / 10) (Nat.div_lt_self (by omega) (by omega)),
        digitChar_toNat (n % 10) (Nat.mod_lt _ (by omega))]
      omega

theorem natToChars_inj {m n : Nat} (h : natToChars m = natToChars n) :
    m = n := by
  have hm := charsToNat_natToChars m
  rw [h, charsToNat_natToChars] at hm
  omega

/-! ### Base64 lemmas -/

theorem b64val_alpha : ∀ v, v < 64 → b64val (b64alpha v) = v := by decide

theorem b64alpha_ne_pad : ∀ v, v < 64 → ¬ b64alpha v = '=' := by decide

theorem b64_roundtrip :
    ∀ l : List Nat, (∀ x ∈ l, x < 256) → b64dec (b64enc l) = some l
  | [], _ => rfl
  | [b0], h => by
      have hb0 : b0 < 256 := h b0 (by simp)
      have e0 := b64val_alpha (b0 / 4) (by omega)
      have e1 := b64val_alpha (b0 % 4 * 16) (by omega)
      simp [b64enc, b64dec, e0, e1]
      omega
  | [b0, b1], h => by
      have hb0 : b0 < 256 := h b0 (by simp)
      have hb1 : b1 < 256 := h b1 (by simp)
      have e0 := b64val_alpha (b0 / 4) (by omega)
      have e1 := b64val_alpha (b0 % 4 * 16 + b1 / 16) (by omega)
      have e2 := b64val_alpha (b1 % 16 * 4) (by omega)
      have n2 := b64alpha_ne_pad (b1 % 16 * 4) (by omega)
      simp [b64enc, b64dec, e0, e1, e2, n2]
      omega
  | b0 :: b1 :: b2 :: c :: rest, h => by
      have hb0 : b0 < 256 := h b0 (by simp)
      have hb1 : b1 < 256 := h b1 (by simp)
      have hb2 : b2 < 256 := h b2 (by simp)
      have e0 := b64val_alpha (b0 / 4) (by omega)
      have e1 := b64val_alpha (b0 % 4 * 16 + b1 / 16) (by omega)
      have e2 := b64val_alpha (b1 % 16 * 4 + b2 / 64) (by omega)
      have e3 := b64val_alpha (b2 % 64) (by omega)
      have n2 := b64alpha_ne_pad (b1 % 16 * 4 + b2 / 64) (by omega)
      have n3 := b64alpha_ne_pad (b2 % 64) (by omega)
      have ih := b64_roundtrip (c :: rest)
        (fun x hx => h x (by simp at hx ⊢; tauto))
      simp [b64enc, b64dec, e0, e1, e2, e3, n2, n3, ih]
      omega
  | [b0, b1, b2], h => by
      have hb0 : b0 < 256 := h b0 (by simp)
      have hb1 : b1 < 256 := h b1 (by simp)
      have hb2 : b2 < 256 := h b2 (by simp)
      have e0 := b64val_alpha (b0 / 4) (by omega)
      have e1 := b64val_alpha (b0 % 4 * 16 + b1 / 16) (by omega)
      have e2 := b64val_alpha (b1 % 16 * 4 + b2 / 64) (by omega)
      have e3 := b64val_alpha (b2 % 64) (by omega)
      have n2 := b64alpha_ne_pad (b1 % 16 * 4 + b2 / 64) (by omega)
      have n3 := b64alpha_ne_pad (b2 % 64) (by omega)
      simp [b64enc, b64dec, e0, e1, e2, e3, n2, n3]
      omega

theorem b64enc_ne_nil : ∀ l : List Nat, l ≠ [] → b64enc l ≠ [] := by
  intro l hl
  match l with
  | [] => exact absurd rfl hl
  | [b0] => simp [b64enc]
  | [b0, b1] => simp [b64enc]
  | b0 :: b1 :: b2 :: rest => simp [b64enc]

/-! ### Escaping lemmas -/

theorem escChar_of_esc {c : Char} (h : c = '"' ∨ c = '\\') :
    escChar c = ['\\', c] := by
  simp [escChar, h]

theorem escChar_of_plain {c : Char} (h : ¬ (c = '"' ∨ c = '\\')) :
    escChar c = [c] := by
  simp [escChar, h]

theorem esc_quote_split :
    ∀ (t1 t2 R1 R2 : List Char),
      escChars t1 ++ '"' :: R1 = escChars t2 ++ '"' :: R2 →
      t1 = t2 ∧ R1 = R2 := by
  intro t1
  induction t1 with
  | nil =>
    intro t2 R1 R2 h
    cases t2 with
    | nil => simpa [escChars] using h
    | cons c2 s2 =>
      exfalso
      rw [show escChars ([] : List Char) = [] from rfl,
        show escChars (c2 :: s2) = escChar c2 ++ escChars s2 from rfl] at h
      by_cases h2 : c2 = '"' ∨ c2 = '\\'
      · rw [escChar_of_esc h2] at h
        simp only [List.nil_append, List.cons_append, List.cons.injEq] at h
        exact absurd h.1 (by decide)
      · rw [escChar_of_plain h2] at h
        simp only [List.nil_append, List.cons_append, List.cons.injEq] at h
        exact absurd h.1.symm (by tauto)
  | cons c1 s1 ih =>
    intro t2 R1 R2 h
    cases t2 with
    | nil =>
      exfalso
      rw [show escChars ([] : List Char) = [] from rfl,
        show escChars (c1 :: s1) = escChar c1 ++ escChars s1 from rfl] at h
      by_cases h1 : c1 = '"' ∨ c1 = '\\'
      · rw [escChar_of_esc h1] at h
        simp only [List.nil_append, List.cons_append, List.cons.injEq] at h
        exact absurd h.1.symm (by decide)
      · rw [escChar_of_plain h1] at h
        simp only [List.nil_append, List.cons_append, List.cons.injEq] at h
        exact absurd h.1 (by tauto)
    | cons c2 s2 =>
      rw [show escChars (c1 :: s1) = escChar c1 ++ escChars s1 from rfl,
        show escChars (c2 :: s2) = escChar c2 ++ escChars s2 from rfl] at h
      by_cases h1 : c1 = '"' ∨ c1 = '\\' <;>
        by_cases h2 : c2 = '"' ∨ c2 = '\\'
      · rw [escChar_of_esc h1, escChar_of_esc h2] at h
        simp only [List.cons_append, List.cons.injEq, true_and] at h
        obtain ⟨hc, hrest⟩ := h
        obtain ⟨hs, hR⟩ := ih s2 R1 R2 hrest
        exact ⟨by rw [hc, hs], hR⟩
      · exfalso
        rw [escChar_of_esc h1, escChar_of_plain h2] at h
        simp only [List.cons_append, List.cons.injEq] at h
        exact absurd h.1.symm (by tauto)
      · exfalso
        rw [escChar_of_plain h1, escChar_of_esc h2] at h
        simp only [List.cons_append, List.cons.injEq] at h
        exact absurd h.1 (by tauto)
      · rw [escChar_of_plain h1, escChar_of_plain h2] at h
        simp only [List.cons_append, List.cons.injEq] at h
        obtain ⟨hc, hrest⟩ := h
        obtain ⟨hs, hR⟩ := ih s2 R1 R2 hrest
        exact ⟨by rw [hc, hs], hR⟩

theorem escChars_inj {t1 t2 : List Char} (h : escChars t1 = escChars t2) :
    t1 = t2 := by
  have := esc_quote_split t1 t2 [] [] (by rw [h])
  exact this.1

/-! ### Digit-run extraction -/

theorem takeWhile_append_stop (p : Char → Bool) :
    ∀ (a : List Char) (c : Char) (r : List Char),
      (∀ x ∈ a, p x = true) → p c = false →
      (a ++ c :: r).takeWhile p = a := by
  intro a
  induction a with
  | nil =>
    intro c r _ hc
    simp [List.takeWhile_cons, hc]
  | cons x a ih =>
    intro c r ha hc
    have hx : p x = true := ha x (by simp)
    simp only [List.cons_append, List.takeWhile_cons, hx, if_true]
    rw [ih c r (fun y hy => ha y (by simp [hy])) hc]

theorem extract_shape (P ds : List Char)
    (hds : ∀ c ∈ ds, c.isDigit = true) :
    ((((P ++ ':' :: (ds ++ [Char.ofNat 125])).reverse.drop 1).takeWhile
      Char.isDigit).reverse) = ds := by
  have h1 : (P ++ ':' :: (ds ++ [Char.ofNat 125])).reverse
      = Char.ofNat 125 :: (ds.reverse ++ ':' :: P.reverse) := by
    simp [List.reverse_append]
  rw [h1]
  simp only [List.drop_succ_cons, List.drop_zero]
  rw [takeWhile_append_stop Char.isDigit ds.reverse ':' P.reverse
    (fun x hx => hds x (List.mem_reverse.1 hx)) (by decide)]
  simp

/-! ### Block serialization: which fields the digest depends on -/

theorem jnumChars_nat (n : Nat) : jnumChars (n : Int) = natToChars n := by
  simp [jnumChars]

theorem jnumChars_nat_inj {v w : Nat}
    (h : jnumChars (v : Int) = jnumChars (w : Int)) : v = w := by
  rw [jnumChars_nat, jnumChars_nat] at h
  exact natToChars_inj h

theorem bh_nonce_inj (b : Block) (v w : Nat)
    (h : jsonChars (blockHashData { b with nonce := v }) =
      jsonChars (blockHashData { b with nonce := w })) : v = w := by
  simp only [blockHashData, jsonChars, objChars, List.cons_append,
    List.append_assoc, List.cons.injEq, List.append_cancel_left_eq,
    List.append_cancel_right_eq, true_and, and_true] at h
  exact jnumChars_nat_inj h

theorem bh_index_inj (b : Block) (v w : Nat)
    (h : jsonChars (blockHashData { b with index := v }) =
      jsonChars (blockHashData { b with index := w })) : v = w := by
  simp only [blockHashData, jsonChars, objChars, List.cons_append,
    List.append_assoc, List.cons.injEq, List.append_cancel_left_eq,
    List.append_cancel_right_eq, true_and, and_true] at h
  exact jnumChars_nat_inj h

theorem bh_timestamp_inj (b : Block) (v w : String)
    (h : jsonChars (blockHashData { b with timestamp := v }) =
      jsonChars (blockHashData { b with timestamp := w })) : v = w := by
  simp only [blockHashData, jsonChars, objChars, List.cons_append,
    List.append_assoc, List.cons.injEq, List.append_cancel_left_eq,
    List.append_cancel_right_eq, true_and, and_true] at h
  cases v with
  | mk dv =>
    cases w with
    | mk dw => exact congrArg String.mk (escChars_inj h)

theorem bh_prevHash_inj (b : Block) (v w : String)
    (h : jsonChars (blockHashData { b with previousHash := v }) =
      jsonChars (blockHashData { b with previousHash := w })) : v = w := by
  simp only [blockHashData, jsonChars, objChars, List.cons_append,
    List.append_assoc, List.cons.injEq, List.append_cancel_left_eq,
    List.append_cancel_right_eq, true_and, and_true] at h
  cases v with
  | mk dv =>
    cases w with
    | mk dw => exact congrArg String.mk (escChars_inj h)

theorem bh_txs_cancel (b : Block) (ts us : List Transaction)
    (h : jsonChars (blockHashData { b with transactions := ts }) =
      jsonChars (blockHashData { b with transactions := us })) :
    arrChars (ts.map txToJson) = arrChars (us.map txToJson) := by
  simp only [blockHashData, jsonChars, objChars, List.cons_append,
    List.append_assoc, List.cons.injEq, List.append_cancel_left_eq,
    List.append_cancel_right_eq, true_and, and_true,
    List.singleton_append] at h
  exact h

theorem calcHash_set_hash (H : String → String) (b : Block) (v : String) :
    calculateHash H { b with hash := v } = calculateHash H b := rfl

/-! ### Chain-scan lemmas -/

theorem chainScan_valid_hash (H : String → String) :
    ∀ (c : List Block) (prev : Option Block) (i : Nat),
      chainScan H prev c i = none → ∀ b ∈ c, b.hash = calculateHash H b := by
  intro c
  induction c with
  | nil =>
    intro prev i _ b hb
    simp at hb
  | cons x rest ih =>
    intro prev i h b hb
    cases prev with
    | none =>
      simp only [chainScan] at h
      split at h
      · exact absurd h (by simp)
      · next hx =>
        rcases List.mem_cons.1 hb with rfl | hmem
        · exact not_not.1 hx
        · exact ih (some x) (i + 1) h b hmem
    | some p =>
      simp only [chainScan] at h
      split at h
      · exact absurd h (by simp)
      · next hx =>
        split at h
        · exact absurd h (by simp)
        · rcases List.mem_cons.1 hb with rfl | hmem
          · exact not_not.1 hx
          · exact ih (some x) (i + 1) h b hmem

theorem chainScan_detect (H : String → String) :
    ∀ (pre : List Block) (prev : Option Block) (i : Nat) (b b' : Block)
      (post : List Block),
      chainScan H prev (pre ++ b :: post) i = none →
      (¬ b'.hash = calculateHash H b' ∨
        ∃ p, lastOr prev pre = some p ∧ ¬ b'.previousHash = p.hash) →
      chainScan H prev (pre ++ b' :: post) i = some (i + pre.length) := by
  intro pre
  induction pre with
  | nil =>
    intro prev i b b' post _h hfail
    simp only [List.nil_append, List.length_nil, Nat.add_zero]
    rcases hfail with hf | ⟨p, hp, hf⟩
    · simp [chainScan, if_pos hf]
    · simp only [lastOr] at hp
      subst hp
      simp only [chainScan]
      split
      · rfl
      · simp [if_pos hf]
  | cons x pre ih =>
    intro prev i b b' post h hfail
    simp only [List.cons_append] at h ⊢
    have harith : i + (x :: pre).length = (i + 1) + pre.length := by
      simp [List.length_cons]; omega
    rw [harith]
    cases prev with
    | none =>
      simp only [chainScan] at h ⊢
      split at h
      · exact absurd h (by simp)
      · next hx =>
        rw [if_neg hx]
        exact ih (some x) (i + 1) b b' post h hfail
    | some p =>
      simp only [chainScan] at h ⊢
      split at h
      · exact absurd h (by simp)
      · next hx =>
        split at h
        · exact absurd h (by simp)
        · next hl =>
          rw [if_neg hx, if_neg hl]
          exact ih (some x) (i + 1) b b' post h hfail

theorem isChainValid_eq_none (H : String → String) (c : List Block)
    (h : isChainValid H c = (true, none)) : chainScan H none c 0 = none := by
  cases hsc : chainScan H none c 0 with
  | none => rfl
  | some j => simp [isChainValid, hsc] at h

/-- C1 (amended): in a valid chain, mutating at a non-genesis position
`i` any stored field that enters the digest (`index`, `timestamp`,
`previousHash`, `nonce`), the stored `hash` itself, or the transaction
list (whenever the replacement serializes differently), makes validation
return `false` and report `i` as the first invalid block — assuming the
digest primitive is collision-free (injective). Mutations of fields
outside the digest (`difficulty`, `metadata`) are not detected, see the
counterexample. -/
theorem C1_theorem (H : String → String) (c : List Block) (i : Nat)
    (hinj : Function.Injective H)
    (hv : isChainValid H c = (true, none))
    (_hi : 1 ≤ i) (hlen : i < c.length) :
    (∀ v, ¬ v = (c.get ⟨i, hlen⟩).hash →
      isChainValid H (c.set i { (c.get ⟨i, hlen⟩) with hash := v }) =
        (false, some i)) ∧
    (∀ v, ¬ v = (c.get ⟨i, hlen⟩).nonce →
      isChainValid H (c.set i { (c.get ⟨i, hlen⟩) with nonce := v }) =
        (false, some i)) ∧
    (∀ v, ¬ v = (c.get ⟨i, hlen⟩).index →
      isChainValid H (c.set i { (c.get ⟨i, hlen⟩) with index := v }) =
        (false, some i)) ∧
    (∀ v, ¬ v = (c.get ⟨i, hlen⟩).timestamp →
      isChainValid H (c.set i { (c.get ⟨i, hlen⟩) with timestamp := v }) =
        (false, some i)) ∧
    (∀ v, ¬ v = (c.get ⟨i, hlen⟩).previousHash →
      isChainValid H (c.set i { (c.get ⟨i, hlen⟩) with previousHash := v }) =
        (false, some i)) ∧
    (∀ ts, ¬ arrChars (ts.map txToJson) =
        arrChars ((c.get ⟨i, hlen⟩).transactions.map txToJson) →
      isChainValid H (c.set i { (c.get ⟨i, hlen⟩) with transactions := ts }) =
        (false, some i)) := by
  have hscan : chainScan H none c 0 = none := isChainValid_eq_none H c hv
  have hdecomp : c = c.take i ++ (c.get ⟨i, hlen⟩) :: c.drop (i + 1) := by
    conv_lhs => rw [← List.take_append_drop i c]
    congr 1
    rw [List.drop_eq_getElem_cons hlen]
    rfl
  have hlenpre : (c.take i).length = i := by
    simp [List.length_take]
    omega
  have hset : ∀ b'' : Block,
      c.set i b'' = c.take i ++ b'' :: c.drop (i + 1) := by
    intro b''
    rw [List.set_eq_take_append_cons_drop, if_pos hlen]
  have hvalid : (c.get ⟨i, hlen⟩).hash = calculateHash H (c.get ⟨i, hlen⟩) :=
    chainScan_valid_hash H c none 0 hscan _ (List.get_mem c i hlen)
  have hpre : chainScan H none
      (c.take i ++ (c.get ⟨i, hlen⟩) :: c.drop (i + 1)) 0 = none := by
    rw [← hdecomp]
    exact hscan
  have main : ∀ b'' : Block,
      (¬ b''.hash = calculateHash H b'' ∨
        ∃ p, lastOr none (c.take i) = some p ∧ ¬ b''.previousHash = p.hash) →
      isChainValid H (c.set i b'') = (false, some i) := by
    intro b'' hf
    have hd := chainScan_detect H (c.take i) none 0 (c.get ⟨i, hlen⟩) b''
      (c.drop (i + 1)) hpre hf
    rw [hlenpre, Nat.zero_add] at hd
    rw [hset b'', isChainValid, hd]
  have strdata : ∀ j1 j2 : Json, jsonStr j1 = jsonStr j2 →
      jsonChars j1 = jsonChars j2 := by
    intro j1 j2 hj
    exact congrArg String.data hj
  refine ⟨?_, ?_, ?_, ?_, ?_, ?_⟩
  · intro v hne
    apply main
    left
    show ¬ v = calculateHash H { (c.get ⟨i, hlen⟩) with hash := v }
    rw [calcHash_set_hash, ← hvalid]
    exact hne
  · intro v hne
    apply main
    left
    intro heq
    have h2 : calculateHash H (c.get ⟨i, hlen⟩) =
        calculateHash H { (c.get ⟨i, hlen⟩) with nonce := v } := by
      rw [← hvalid]
      exact heq
    exact hne (bh_nonce_inj (c.get ⟨i, hlen⟩) v (c.get ⟨i, hlen⟩).nonce
      (strdata _ _ (hinj h2)).symm)
  · intro v hne
    apply main
    left
    intro heq
    have h2 : calculateHash H (c.get ⟨i, hlen⟩) =
        calculateHash H { (c.get ⟨i, hlen⟩) with index := v } := by
      rw [← hvalid]
      exact heq
    exact hne (bh_index_inj (c.get ⟨i, hlen⟩) v (c.get ⟨i, hlen⟩).index
      (strdata _ _ (hinj h2)).symm)
  · intro v hne
    apply main
    left
    intro heq
    have h2 : calculateHash H (c.get ⟨i, hlen⟩) =
        calculateHash H { (c.get ⟨i, hlen⟩) with timestamp := v } := by
      rw [← hvalid]
      exact heq
    exact hne (bh_timestamp_inj (c.get ⟨i, hlen⟩) v
      (c.get ⟨i, hlen⟩).timestamp (strdata _ _ (hinj h2)).symm)
  · intro v hne
    apply main
    left
    intro heq
    have h2 : calculateHash H (c.get ⟨i, hlen⟩) =
        calculateHash H { (c.get ⟨i, hlen⟩) with previousHash := v } := by
      rw [← hvalid]
      exact heq
    exact hne (bh_prevHash_inj (c.get ⟨i, hlen⟩) v
      (c.get ⟨i, hlen⟩).previousHash (strdata _ _ (hinj h2)).symm)
  · intro ts hne
    apply main
    left
    intro heq
    have h2 : calculateHash H (c.get ⟨i, hlen⟩) =
        calculateHash H { (c.get ⟨i, hlen⟩) with transactions := ts } := by
      rw [← hvalid]
      exact heq
    exact hne (bh_txs_cancel (c.get ⟨i, hlen⟩) ts
      (c.get ⟨i, hlen⟩).transactions (strdata _ _ (hinj h2)).symm)

/-- C1 counterexample: `difficulty` is a stored field of the block at
position 1, yet replacing its value 4 by 5 after creation leaves chain
validation reporting `(true, none)` — `Block.calculateHash` does not
cover `difficulty`, so the claim "mutating any stored field is detected"
fails on the code. -/
theorem C1_counterexample :
    ¬ (5 : Nat) = (block1 []).difficulty ∧
    isChainValid idH [gBlock, block1 []] = (true, none) ∧
    isChainValid idH [gBlock, { (block1 []) with difficulty := 5 }] =
      (true, none) := by
  have h1 : isChainValid idH [gBlock, block1 []] = (true, none) := by
    simp [isChainValid, chainScan, gBlock, block1, mkBlock, calculateHash,
      idH, jsonStr, blockHashData, jsonChars, objChars, arrChars, jnumChars,
      natToChars, escChars, escChar, digitChar]
  have h2 : isChainValid idH [gBlock, { (block1 []) with difficulty := 5 }]
      = isChainValid idH [gBlock, block1 []] := rfl
  exact ⟨by decide, h1, h2.trans h1⟩

/-- C1 witness: the detection theorem applied to the concrete two-block
chain, mutating the stored hash of the block at position 1. -/
theorem C1_witness :
    Function.Injective idH ∧
    isChainValid idH [gBlock, block1 []] = (true, none) ∧
    isChainValid idH (([gBlock, block1 []]).set 1
      { (block1 []) with hash := "tampered" }) = (false, some 1) := by
  have hinj : Function.Injective idH := fun _ _ h => h
  have hv : isChainValid idH [gBlock, block1 []] = (true, none) := by
    simp [isChainValid, chainScan, gBlock, block1, mkBlock, calculateHash,
      idH, jsonStr, blockHashData, jsonChars, objChars, arrChars, jnumChars,
      natToChars, escChars, escChar, digitChar]
  refine ⟨hinj, hv, ?_⟩
  exact (C1_theorem idH [gBlock, block1 []] 1 hinj hv (by omega)
    (by simp)).1 "tampered"
    (by simp [block1, mkBlock, calculateHash, idH, jsonStr, blockHashData,
      jsonChars, objChars, arrChars, jnumChars, natToChars, escChars,
      escChar, digitChar])

/-! ### Mining lemmas -/

theorem mineLoop_meets (H : String → String) (d : Nat) :
    ∀ (fuel : Nat) (b b' : Block), mineLoop H d fuel b = some b' →
      meetsDifficulty d b'.hash = true ∧ b'.difficulty = d := by
  intro fuel
  induction fuel with
  | zero =>
    intro b b' h
    simp [mineLoop] at h
  | succ fuel ih =>
    intro b b' h
    rw [mineLoop] at h
    split at h
    · next hm =>
      cases h
      exact ⟨hm, rfl⟩
    · exact ih _ _ h

theorem objChars_append_last (f : String × Json) :
    ∀ (fs : List (String × Json)) (k : String) (v : Json),
      objChars ((f :: fs) ++ [(k, v)]) =
        objChars (f :: fs) ++
          ',' :: ('"' :: (escChars k.data ++ '"' :: ':' :: jsonChars v)) := by
  intro fs
  induction fs generalizing f with
  | nil =>
    intro k v
    cases f with
    | mk fk fv => rfl
  | cons g gs ih =>
    intro k v
    cases f with
    | mk fk fv =>
      show ('"' :: (escChars fk.data ++ '"' :: ':' :: jsonChars fv)) ++
          ',' :: objChars ((g :: gs) ++ [(k, v)]) = _
      rw [ih g k v]
      simp [objChars, List.append_assoc]

theorem extractNonce_obj_last (f : String × Json)
    (fs : List (String × Json)) (k : String) (n : Nat) :
    extractNonce (jsonStr (Json.obj ((f :: fs) ++ [(k, Json.num (n : Int))])))
      = n := by
  have hshape : jsonChars (Json.obj ((f :: fs) ++ [(k, Json.num (n : Int))]))
      = (Char.ofNat 123 ::
          (objChars (f :: fs) ++ ',' :: '"' :: (escChars k.data ++ ['"'])))
        ++ ':' :: (natToChars n ++ [Char.ofNat 125]) := by
    show Char.ofNat 123 ::
        (objChars ((f :: fs) ++ [(k, Json.num (n : Int))]) ++ [Char.ofNat 125])
      = _
    rw [objChars_append_last]
    simp [List.append_assoc, jnumChars_nat,
      show jsonChars (Json.num (n : Int)) = jnumChars (n : Int) from rfl]
  show extractNonce (String.mk (jsonChars _)) = n
  unfold extractNonce
  rw [show (String.mk (jsonChars
      (Json.obj ((f :: fs) ++ [(k, Json.num (n : Int))])))).data =
    jsonChars (Json.obj ((f :: fs) ++ [(k, Json.num (n : Int))])) from rfl]
  rw [hshape, extract_shape _ _ (natToChars_digits n), charsToNat_natToChars]

theorem extractNonce_blockHash (b : Block) :
    extractNonce (jsonStr (blockHashData b)) = b.nonce :=
  extractNonce_obj_last ("index", Json.num (b.index : Int))
    [("timestamp", Json.str b.timestamp),
     ("previousHash", Json.str b.previousHash),
     ("transactions", Json.arr (b.transactions.map txToJson))]
    "nonce" b.nonce

theorem calc_mineH (K : Nat) (b : Block) :
    calculateHash (mineH K) b =
      if b.nonce = K then String.mk (List.replicate 4 '0')
      else String.mk ['f'] := by
  show mineH K (jsonStr (blockHashData b)) = _
  rw [mineH, extractNonce_blockHash]

theorem mineStep_mineAt (K j : Nat) :
    mineStep (mineH K) (mineAt K j) = mineAt K (j + 1) := rfl

theorem mineAt_zero (K : Nat) : mineAt K 0 = mineStart K := rfl

theorem mineAt_hash (K j : Nat) :
    (mineAt K j).hash =
      if j = K then String.mk (List.replicate 4 '0')
      else String.mk ['f'] := by
  rw [show (mineAt K j).hash =
    calculateHash (mineH K) { (mineStart K) with nonce := j } from rfl]
  rw [calc_mineH]

theorem mineLoop_mineH (K : Nat) :
    ∀ (m j : Nat), j + m = K →
      mineLoop (mineH K) 4 (m + 1) (mineAt K j) =
        some { (mineAt K K) with difficulty := 4 } := by
  intro m
  induction m with
  | zero =>
    intro j hj
    have hj' : j = K := by omega
    subst hj'
    rw [mineLoop, if_pos]
    rw [mineAt_hash, if_pos rfl]
    decide
  | succ m ih =>
    intro j hj
    rw [mineLoop, if_neg, mineStep_mineAt]
    · exact ih (j + 1) (by omega)
    · rw [mineAt_hash, if_neg (by omega)]
      decide

/-- C2 (amended): when the mining loop terminates it always returns a
block whose hash has the required difficulty prefix and whose recorded
difficulty is the mining difficulty — but the loop has no maximum-nonce
bound and no `MiningExhausted` failure (see the counterexample, where it
runs past `CONFIG.blockchain.mining.maxNonce` and still succeeds). -/
theorem C2_theorem (H : String → String) (d fuel : Nat) (b b' : Block)
    (h : mineLoop H d fuel b = some b') :
    meetsDifficulty d b'.hash = true ∧ b'.difficulty = d :=
  mineLoop_meets H d fuel b b' h

/-- C2 witness: at difficulty 0 the loop succeeds immediately and the
returned block satisfies the (trivial) prefix check. -/
theorem C2_witness :
    mineLoop idH 0 1 gBlock = some { gBlock with difficulty := 0 } ∧
    meetsDifficulty 0 ({ gBlock with difficulty := 0 }).hash = true := by
  have he : mineLoop idH 0 1 gBlock = some { gBlock with difficulty := 0 } := by
    rw [mineLoop, if_pos]
    simp [meetsDifficulty]
  exact ⟨he, (C2_theorem idH 0 1 gBlock _ he).1⟩

/-- C2 counterexample: with an admissible digest primitive whose first
proof-of-work success is at nonce 1000001, the mining search started at
nonce 0 runs past the configured `maxNonce = 1000000` and returns a
mined block with nonce 1000001 instead of failing with
`MiningExhausted`; the code never reads the configured bound. -/
theorem C2_counterexample :
    mineLoop (mineH 1000001) 4 1000002 (mineStart 1000001) =
      some { (mineAt 1000001 1000001) with difficulty := 4 } ∧
    ({ (mineAt 1000001 1000001) with difficulty := 4 }).nonce = 1000001 ∧
    miningMaxNonce < ({ (mineAt 1000001 1000001) with difficulty := 4 }).nonce
    := by
  refine ⟨?_, rfl, by decide⟩
  rw [← mineAt_zero 1000001]
  exact mineLoop_mineH 1000001 1000001 0 (by omega)

/-- C10: mining only ever modifies the block's `nonce`, `hash` and
`difficulty`: the index, timestamp, previousHash, transactions, metadata
(and the base-model fields) are unchanged by the loop. -/
theorem C10_theorem (H : String → String) (d : Nat) :
    ∀ (fuel : Nat) (b b' : Block), mineLoop H d fuel b = some b' →
      b'.index = b.index ∧ b'.timestamp = b.timestamp ∧
      b'.previousHash = b.previousHash ∧
      b'.transactions = b.transactions ∧ b'.metadata = b.metadata ∧
      b'.id = b.id ∧ b'.createdAt = b.createdAt ∧
      b'.updatedAt = b.updatedAt ∧ b'.version = b.version := by
  intro fuel
  induction fuel with
  | zero =>
    intro b b' h
    simp [mineLoop] at h
  | succ fuel ih =>
    intro b b' h
    rw [mineLoop] at h
    split at h
    · cases h
      exact ⟨rfl, rfl, rfl, rfl, rfl, rfl, rfl, rfl, rfl⟩
    · exact ih (mineStep H b) b' h

/-- C10 witness: the frame property observed on a concrete mining run. -/
theorem C10_witness :
    mineLoop idH 0 1 (block1 []) = some { (block1 []) with difficulty := 0 } ∧
    ({ (block1 []) with difficulty := 0 }).transactions =
      (block1 []).transactions ∧
    ({ (block1 []) with difficulty := 0 }).index = (block1 []).index := by
  have he : mineLoop idH 0 1 (block1 []) =
      some { (block1 []) with difficulty := 0 } := by
    rw [mineLoop, if_pos]
    simp [meetsDifficulty]
  have hf := C10_theorem idH 0 1 (block1 []) _ he
  exact ⟨he, hf.2.2.2.1, hf.1⟩

/-! ### Serialization length lemmas (for the addTransaction claim) -/

theorem jsonChars_ne_nil (j : Json) : jsonChars j ≠ [] := by
  cases j with
  | null => simp [jsonChars]
  | bool b => cases b <;> simp [jsonChars]
  | num i =>
    simp only [jsonChars, jnumChars]
    split
    · simp
    · exact natToChars_ne_nil _
  | str s => simp [jsonChars]
  | arr xs => simp [jsonChars]
  | obj fs => simp [jsonChars]

theorem arrChars_length_append_one (x : Json) :
    ∀ xs : List Json, (arrChars (xs ++ [x])).length =
      (arrChars xs).length + (jsonChars x).length +
        (if xs.length = 0 then 0 else 1) := by
  intro xs
  induction xs with
  | nil => simp [arrChars]
  | cons y ys ih =>
    cases ys with
    | nil =>
      show (arrChars [y, x]).length = _
      simp [arrChars]
      omega
    | cons z zs =>
      have step : arrChars ((y :: z :: zs) ++ [x]) =
          jsonChars y ++ ',' :: arrChars ((z :: zs) ++ [x]) := rfl
      have step2 : arrChars (y :: z :: zs) =
          jsonChars y ++ ',' :: arrChars (z :: zs) := rfl
      rw [step, step2]
      simp only [List.length_append, List.length_cons, ih]
      rw [if_neg (by simp), if_neg (by simp)]
      omega

theorem jsonChars_obj (fs : List (String × Json)) :
    jsonChars (Json.obj fs) =
      Char.ofNat 123 :: (objChars fs ++ [Char.ofNat 125]) := by
  simp [jsonChars]

theorem jsonChars_arr (xs : List Json) :
    jsonChars (Json.arr xs) = '[' :: (arrChars xs ++ [']']) := by
  simp [jsonChars]

theorem bhd_length_lt (b : Block) (t : Transaction) :
    (jsonChars (blockHashData b)).length <
      (jsonChars (blockHashData
        { b with transactions := b.transactions ++ [t] })).length := by
  have hnil : jsonChars (txToJson t) ≠ [] := jsonChars_ne_nil _
  have hpos : 0 < (jsonChars (txToJson t)).length :=
    List.length_pos.2 hnil
  simp only [blockHashData, jsonChars_obj, objChars, jsonChars_arr,
    List.map_append, List.map, List.length_append, List.length_cons,
    arrChars_length_append_one]
  split <;> omega

/-- C7 (amended): the invariant `hash = Digest(index, timestamp,
previousHash, transactions, nonce)` is established by the Block
constructor when no explicit hash is supplied, but `addTransaction` does
NOT preserve it: it appends the transaction and touches the metadata
while leaving the stored `hash` stale, so a block satisfying the
invariant violates it after `addTransaction` (for any collision-free
digest primitive). -/
theorem C7_theorem (H : String → String) :
    (∀ (id ca : String) (idx : Nat) (ts ph : String) (non dif : Nat)
       (txs : List Transaction) (md : BlockMeta),
       (mkBlock H id ca idx ts ph none non dif txs md).hash =
         calculateHash H (mkBlock H id ca idx ts ph none non dif txs md)) ∧
    (∀ (now : String) (b : Block) (t : Transaction) (b' : Block),
       addTransaction now b t = some b' →
       b'.hash = b.hash ∧ b'.transactions = b.transactions ++ [t]) ∧
    (Function.Injective H →
     ∀ (now : String) (b : Block) (t : Transaction) (b' : Block),
       b.hash = calculateHash H b → addTransaction now b t = some b' →
       ¬ b'.hash = calculateHash H b') := by
  refine ⟨fun _ _ _ _ _ _ _ _ _ => rfl, ?_, ?_⟩
  · intro now b t b' h
    rw [addTransaction] at h
    split at h
    · cases h
      exact ⟨rfl, rfl⟩
    · exact absurd h (by simp)
  · intro hinj now b t b' hv h
    rw [addTransaction] at h
    split at h
    · cases h
      intro heq
      have h2 : calculateHash H b =
          calculateHash H { b with transactions := b.transactions ++ [t] } := by
        rw [← hv]
        exact heq
      have h3 : jsonChars (blockHashData b) = jsonChars (blockHashData
          { b with transactions := b.transactions ++ [t] }) :=
        congrArg String.data (hinj h2)
      have h4 := congrArg List.length h3
      exact absurd h4 (Nat.ne_of_lt (bhd_length_lt b t))
    · exact absurd h (by simp)

/-- C7 counterexample: a concrete block satisfying the hash invariant
stops satisfying it after `addTransaction`: the stored hash is stale and
`validate` would report the block invalid — transactions are not
immutable after block creation, and the operation does not re-establish
the invariant. -/
theorem C7_counterexample :
    (addTransaction "t2" (block1 []) (txWith (Json.obj []))).isSome = true ∧
    (block1 []).hash = calculateHash idH (block1 []) ∧
    ¬ ((addTransaction "t2" (block1 []) (txWith (Json.obj []))).getD gBlock).hash
      = calculateHash idH
        ((addTransaction "t2" (block1 []) (txWith (Json.obj []))).getD gBlock)
    := by
  have hval : txValid (txWith (Json.obj [])) = true := by
    simp [txValid, txWith]
  have hadd : addTransaction "t2" (block1 []) (txWith (Json.obj [])) =
      some { (block1 []) with
        transactions := (block1 []).transactions ++ [txWith (Json.obj [])],
        metadata := { (block1 []).metadata with
          transactionCount := (block1 []).transactions.length + 1 },
        updatedAt := "t2", version := (block1 []).version + 1 } := by
    rw [addTransaction, if_pos hval]
  refine ⟨by rw [hadd]; rfl, rfl, ?_⟩
  rw [hadd]
  intro heq
  have h3 := congrArg String.data heq
  have h4 := congrArg List.length h3
  exact absurd h4
    (Nat.ne_of_lt (bhd_length_lt (block1 []) (txWith (Json.obj []))))

/-- C7 witness: the amended theorem applied to the concrete block and
transaction of the counterexample. -/
theorem C7_witness :
    ¬ (({ (block1 []) with
        transactions := (block1 []).transactions ++ [txWith (Json.obj [])],
        metadata := { (block1 []).metadata with
          transactionCount := (block1 []).transactions.length + 1 },
        updatedAt := "t2", version := (block1 []).version + 1 } : Block)).hash
      = calculateHash idH
        ({ (block1 []) with
          transactions := (block1 []).transactions ++ [txWith (Json.obj [])],
          metadata := { (block1 []).metadata with
            transactionCount := (block1 []).transactions.length + 1 },
          updatedAt := "t2", version := (block1 []).version + 1 } : Block) := by
  have hval : txValid (txWith (Json.obj [])) = true := by
    simp [txValid, txWith]
  exact (C7_theorem idH).2.2 (fun _ _ h => h) "t2" (block1 [])
    (txWith (Json.obj [])) _ rfl (by rw [addTransaction, if_pos hval])

/-- C5 (amended): the digest is deterministic in the sense the code
provides — `SmartContract.calculateHash` depends only on the extracted
components `title`, `parties`, `terms`, `financial`, `timeline`, and
`Block.calculateHash` only on `index`, `timestamp`, `previousHash`,
`transactions`, `nonce`, regardless of all other fields — but object
keys are NOT sorted before serialization: payloads copied verbatim keep
their insertion order, and reordering keys there changes the digest (see
the counterexample). -/
theorem C5_theorem (H : String → String) :
    (∀ c₁ c₂ : SmartContract, c₁.title = c₂.title →
       c₁.party1 = c₂.party1 → c₁.party2 = c₂.party2 →
       c₁.terms = c₂.terms → c₁.financial = c₂.financial →
       c₁.timeline = c₂.timeline →
       scCalculateHash H c₁ = scCalculateHash H c₂) ∧
    (∀ b₁ b₂ : Block, b₁.index = b₂.index → b₁.timestamp = b₂.timestamp →
       b₁.previousHash = b₂.previousHash →
       b₁.transactions = b₂.transactions → b₁.nonce = b₂.nonce →
       calculateHash H b₁ = calculateHash H b₂) := by
  constructor
  · intro c₁ c₂ h1 h2 h3 h4 h5 h6
    unfold scCalculateHash scHashData
    rw [h1, h2, h3, h4, h5, h6]
  · intro b₁ b₂ h1 h2 h3 h4 h5
    unfold calculateHash blockHashData
    rw [h1, h2, h3, h4, h5]

/-- C5 witness: componentwise determinism observed at concrete values
differing in non-hashed fields. -/
theorem C5_witness :
    ¬ scDemo.status = ({ scDemo with status := "active" }).status ∧
    scCalculateHash idH scDemo =
      scCalculateHash idH { scDemo with status := "active" } ∧
    calculateHash idH gBlock =
      calculateHash idH { gBlock with difficulty := 9 } := by
  refine ⟨by simp [scDemo], ?_, ?_⟩
  · exact (C5_theorem idH).1 _ _ rfl rfl rfl rfl rfl rfl
  · exact (C5_theorem idH).2 _ _ rfl rfl rfl rfl rfl

/-- C5 counterexample: two structurally identical transaction payloads
whose object keys are inserted in opposite orders serialize differently
(keys are not sorted before `JSON.stringify`), and the containing
blocks' digests differ under an admissible digest primitive — refuting
"structurally identical payloads (regardless of key insertion order)
produce identical output". -/
theorem C5_counterexample :
    Json.obj (c5fields.reverse) =
      Json.obj [("b", Json.num 2), ("a", Json.num 1)] ∧
    ¬ jsonStr (blockHashData (block1 [txWith (Json.obj c5fields)])) =
      jsonStr (blockHashData (block1 [txWith (Json.obj (c5fields.reverse))]))
    ∧
    ¬ calculateHash idH (block1 [txWith (Json.obj c5fields)]) =
      calculateHash idH (block1 [txWith (Json.obj (c5fields.reverse))]) := by
  refine ⟨by simp [c5fields], ?_, ?_⟩ <;>
    · set_option maxRecDepth 4000 in
      simp [calculateHash, idH, jsonStr, blockHashData, jsonChars, objChars,
        arrChars, jnumChars, natToChars, escChars, escChar, digitChar,
        txToJson, txWith, tmeta0, block1, mkBlock, gBlock, c5fields]

/-! ### Content-store lemmas -/

theorem loadAll_foldl (records : List (String × StoreRecord)) :
    ∀ (ids : List String) (acc : List StoreRecord),
      ids.foldl (fun arr id =>
        match kvGet records id with
        | some r => arr ++ [r]
        | none => arr) acc = acc ++ ids.filterMap (kvGet records) := by
  intro ids
  induction ids with
  | nil =>
    intro acc
    simp
  | cons id rest ih =>
    intro acc
    simp only [List.foldl_cons, List.filterMap_cons]
    cases h : kvGet records id with
    | some r =>
      simp only [h, ih (acc ++ [r]), List.append_assoc, List.cons_append,
        List.nil_append]
    | none =>
      simp only [h, ih acc]

/-- C9: `loadAll` returns exactly the records resolvable from the index,
in index position order, skipping ids whose backing record is missing —
i.e., it is the `filterMap` of the index through the record lookup, and
in particular it is total (never fails). -/
theorem C9_theorem (st : StoreState) :
    loadAll st = st.index.filterMap (kvGet st.records) := by
  unfold loadAll
  rw [loadAll_foldl]
  simp

theorem scanDup_some (records : List (String × StoreRecord)) :
    ∀ (ids : List String) (h rid : String),
      scanDup records ids h = some rid →
      ∃ r, kvGet records rid = some r ∧ r.sha256 = h := by
  intro ids
  induction ids with
  | nil =>
    intro h rid hs
    simp [scanDup] at hs
  | cons i rest ih =>
    intro h rid hs
    cases hk : kvGet records i with
    | some r =>
      simp only [scanDup, hk] at hs
      by_cases hr : r.sha256 = h
      · rw [if_pos hr] at hs
        cases hs
        exact ⟨r, hk, hr⟩
      · rw [if_neg hr] at hs
        exact ih h rid hs
    | none =>
      simp only [scanDup, hk] at hs
      exact ih h rid hs

theorem scanDup_none (records : List (String × StoreRecord)) :
    ∀ (ids : List String) (h : String),
      (∀ rid r, kvGet records rid = some r → ¬ r.sha256 = h) →
      scanDup records ids h = none := by
  intro ids
  induction ids with
  | nil =>
    intro h _
    rfl
  | cons i rest ih =>
    intro h hall
    cases hk : kvGet records i with
    | some r =>
      simp only [scanDup, hk]
      rw [if_neg (hall i r hk)]
      exact ih h hall
    | none =>
      simp only [scanDup, hk]
      exact ih h hall

theorem scanDup_head (records : List (String × StoreRecord)) (f : String)
    (rec : StoreRecord) (ids : List String) (h : String)
    (hsha : rec.sha256 = h) :
    scanDup ((f, rec) :: records) (f :: ids) h = some f := by
  rw [scanDup]
  simp [kvGet, hsha]

/-- C4: a second save of byte-identical content, under any metadata and
any freshly generated id, returns the id the first save returned and
leaves the store (records and index) exactly as the first save left it:
the duplicate scan finds the record with the same content digest before
anything is written. -/
theorem C4_theorem (Hb : List Nat → String) (st : StoreState)
    (f1 f2 : String) (n1 n2 : Nat) (m1 m2 : StoreMeta) (B : List Nat) :
    save Hb ((save Hb st f1 n1 m1 (some B)).2) f2 n2 m2 (some B) =
      ((save Hb st f1 n1 m1 (some B)).1,
       (save Hb st f1 n1 m1 (some B)).2) := by
  cases hscan : scanDup st.records st.index (Hb B) with
  | some rid =>
    have h1 : save Hb st f1 n1 m1 (some B) = (some rid, st) := by
      simp [save, hscan]
    rw [h1]
    simp [save, hscan]
  | none =>
    have h1 : save Hb st f1 n1 m1 (some B) = (some f1,
        { records := (f1, mkStoreRecord Hb f1 n1 m1 B) :: st.records,
          index := if (f1 :: st.index).length > indexCap
            then (f1 :: st.index).take indexCap
            else f1 :: st.index }) := by
      simp [save, hscan]
    rw [h1]
    have hscan2 : scanDup ((f1, mkStoreRecord Hb f1 n1 m1 B) :: st.records)
        (if (f1 :: st.index).length > indexCap
          then (f1 :: st.index).take indexCap
          else f1 :: st.index) (Hb B) = some f1 := by
      split
      · rw [show (f1 :: st.index).take indexCap =
          f1 :: st.index.take 499 from rfl]
        exact scanDup_head _ _ _ _ _ rfl
      · exact scanDup_head _ _ _ _ _ rfl
    simp only [save]
    rw [hscan2]

/-- C6 (amended): `save` fails (returns `null`, leaving the store
untouched) exactly when the blob argument is absent — a provided blob,
even an empty one, is never rejected (the guard `if(!arrayBuffer)` does
not fire on an empty `ArrayBuffer`, which is truthy in JS). -/
theorem C6_theorem (Hb : List Nat → String) (st : StoreState)
    (freshId : String) (now : Nat) (meta : StoreMeta) :
    save Hb st freshId now meta none = (none, st) ∧
    ∀ B : List Nat, ¬ (save Hb st freshId now meta (some B)).1 = none := by
  refine ⟨rfl, ?_⟩
  intro B
  cases hscan : scanDup st.records st.index (Hb B) with
  | some rid => simp [save, hscan]
  | none => simp [save, hscan]

/-- C6 witness: the failure-mode theorem observed at a concrete store:
a missing blob fails and leaves the store untouched, a provided blob
does not fail. -/
theorem C6_witness :
    save c3Hb emptyStore "CR_9" 0 meta0 none = (none, emptyStore) ∧
    ¬ (save c3Hb emptyStore "CR_9" 0 meta0 (some [7])).1 = none :=
  ⟨(C6_theorem c3Hb emptyStore "CR_9" 0 meta0).1,
   (C6_theorem c3Hb emptyStore "CR_9" 0 meta0).2 [7]⟩

/-- C6 counterexample: saving an explicitly EMPTY blob does not fail
with `NoBlobProvided` — it returns a fresh record id and persists a
record for the empty content, refuting "fails exactly when the blob is
absent or empty". -/
theorem C6_counterexample :
    (save c3Hb emptyStore "CR_1" 0 meta0 (some [])).1 = some "CR_1" ∧
    kvGet (save c3Hb emptyStore "CR_1" 0 meta0 (some [])).2.records "CR_1"
      = some (mkStoreRecord c3Hb "CR_1" 0 meta0 []) := by
  constructor <;> simp [save, scanDup, kvGet, emptyStore]

/-! ### Capacity-bound lemmas -/

theorem length_revRange : ∀ n, (revRange n).length = n := by
  intro n
  induction n with
  | zero => rfl
  | succ n ih => simp [revRange, ih]

theorem mem_revRange : ∀ (n k : Nat), k ∈ revRange n ↔ k < n := by
  intro n
  induction n with
  | zero => intro k; simp [revRange]
  | succ n ih =>
    intro k
    simp only [revRange, List.mem_cons, ih]
    omega

theorem mem_take_revRange : ∀ (n m k : Nat),
    k ∈ (revRange n).take m → n ≤ k + m := by
  intro n
  induction n with
  | zero =>
    intro m k h
    simp [revRange] at h
  | succ n ih =>
    intro m k h
    cases m with
    | zero => simp at h
    | succ m =>
      rw [show revRange (n + 1) = n :: revRange n from rfl,
        List.take_succ_cons] at h
      rcases List.mem_cons.1 h with rfl | h2
      · omega
      · have := ih m k h2
        omega

theorem c3id_inj {k j : Nat} (h : c3id k = c3id j) : k = j := by
  have h2 : ('i' :: 'd' :: natToChars k) = ('i' :: 'd' :: natToChars j) :=
    congrArg String.data h
  simp only [List.cons.injEq, true_and] at h2
  exact natToChars_inj h2

theorem kvGet_c3map : ∀ (l : List Nat) (j : Nat), j ∈ l →
    kvGet (l.map fun k => (c3id k, c3rec k)) (c3id j) = some (c3rec j) := by
  intro l
  induction l with
  | nil =>
    intro j h
    simp at h
  | cons k rest ih =>
    intro j hj
    simp only [List.map_cons]
    rw [kvGet]
    by_cases he : c3id k = c3id j
    · have hkj : k = j := c3id_inj he
      subst hkj
      rw [if_pos rfl]
    · rw [if_neg he]
      rcases List.mem_cons.1 hj with rfl | h2
      · exact absurd rfl he
      · exact ih j h2

theorem kvGet_c3map_sha : ∀ (l : List Nat) (rid : String) (r : StoreRecord),
    kvGet (l.map fun k => (c3id k, c3rec k)) rid = some r →
    r.sha256 = "x" := by
  intro l
  induction l with
  | nil =>
    intro rid r h
    simp [kvGet] at h
  | cons k rest ih =>
    intro rid r h
    simp only [List.map_cons] at h
    rw [kvGet] at h
    split at h
    · cases h
      rfl
    · exact ih rid r h

theorem save_fresh (Hb : List Nat → String) (st : StoreState)
    (freshId : String) (now : Nat) (meta : StoreMeta) (B : List Nat)
    (hscan : scanDup st.records st.index (Hb B) = none)
    (hcond : (freshId :: st.index).length > indexCap) :
    save Hb st freshId now meta (some B) = (some freshId,
      { records := (freshId, mkStoreRecord Hb freshId now meta B) ::
          st.records,
        index := (freshId :: st.index).take indexCap }) := by
  simp only [save, hscan]
  rw [if_pos hcond]

/-- C3 counterexample: with the index at its 500-entry cap, saving a
501st distinct record evicts the oldest id (`id0`) from the index — but
the persisted record `id0` points to is NOT removed from storage: an
orphaned record remains, refuting "its persisted Record is also
removed". -/
theorem C3_counterexample :
    c3id 0 ∈ c3st.index ∧ c3st.index.length = indexCap ∧
    (save c3Hb c3st (c3id 500) 0 meta0 (some [1])).1 = some (c3id 500) ∧
    (save c3Hb c3st (c3id 500) 0 meta0 (some [1])).2.index.length = indexCap
    ∧
    ¬ c3id 0 ∈ (save c3Hb c3st (c3id 500) 0 meta0 (some [1])).2.index ∧
    kvGet (save c3Hb c3st (c3id 500) 0 meta0 (some [1])).2.records (c3id 0)
      = some (c3rec 0) := by
  have hlen : c3st.index.length = 500 := by
    show ((revRange 500).map c3id).length = 500
    rw [List.length_map, length_revRange]
  have hscan : scanDup c3st.records c3st.index (c3Hb [1]) = none := by
    apply scanDup_none
    intro rid r hk
    have hx : r.sha256 = "x" := kvGet_c3map_sha (revRange 500) rid r hk
    rw [hx]
    simp [c3Hb]
  have hcond : (c3id 500 :: c3st.index).length > indexCap := by
    rw [List.length_cons, hlen]
    decide
  have hsave := save_fresh c3Hb c3st (c3id 500) 0 meta0 [1] hscan hcond
  refine ⟨?_, by rw [hlen]; rfl, ?_, ?_, ?_, ?_⟩
  · exact List.mem_map.2 ⟨0, (mem_revRange 500 0).2 (by omega), rfl⟩
  · rw [hsave]
  · rw [hsave]
    show ((c3id 500 :: c3st.index).take indexCap).length = indexCap
    rw [List.length_take, List.length_cons, hlen]
    decide
  · rw [hsave]
    intro hmem
    rw [show (c3id 500 :: c3st.index).take indexCap =
      c3id 500 :: c3st.index.take 499 from rfl] at hmem
    rcases List.mem_cons.1 hmem with he | h2
    · exact absurd (c3id_inj he.symm) (by omega)
    · rw [show c3st.index.take 499 =
        ((revRange 500).take 499).map c3id from by
          rw [List.map_take]
          rfl] at h2
      obtain ⟨k, hk, hke⟩ := List.mem_map.1 h2
      have hk0 : k = 0 := c3id_inj hke
      subst hk0
      have := mem_take_revRange 500 499 0 hk
      omega
  · rw [hsave]
    rw [kvGet, if_neg (fun he => absurd (c3id_inj he) (by omega))]
    exact kvGet_c3map (revRange 500) 0 ((mem_revRange 500 0).2 (by omega))

/-- C3 (amended): after any save on a store whose index is within the
500-entry cap, the index still holds at most 500 ids (on overflow the
oldest id is dropped), but no persisted record is ever removed by save:
every record stored under an id other than the fresh one is still
retrievable afterwards (the evicted record is orphaned, not deleted). -/
theorem C3_theorem (Hb : List Nat → String) (st : StoreState)
    (freshId : String) (now : Nat) (meta : StoreMeta)
    (blob : Option (List Nat)) (hlen : st.index.length ≤ indexCap) :
    (save Hb st freshId now meta blob).2.index.length ≤ indexCap ∧
    (∀ k r, ¬ k = freshId → kvGet st.records k = some r →
      kvGet (save Hb st freshId now meta blob).2.records k = some r) := by
  cases blob with
  | none => exact ⟨hlen, fun _ _ _ h => h⟩
  | some B =>
    cases hscan : scanDup st.records st.index (Hb B) with
    | some rid =>
      have h1 : save Hb st freshId now meta (some B) = (some rid, st) := by
        simp [save, hscan]
      rw [h1]
      exact ⟨hlen, fun _ _ _ h => h⟩
    | none =>
      have h1 : save Hb st freshId now meta (some B) = (some freshId,
          { records := (freshId, mkStoreRecord Hb freshId now meta B) ::
              st.records,
            index := if (freshId :: st.index).length > indexCap
              then (freshId :: st.index).take indexCap
              else freshId :: st.index }) := by
        simp [save, hscan]
      rw [h1]
      constructor
      · split
        · simp [List.length_take]
        · next hgt =>
          simp only [List.length_cons]
          simp only [gt_iff_lt, not_lt, List.length_cons] at hgt
          exact hgt
      · intro k r hne hk
        rw [kvGet, if_neg (fun he => hne he.symm)]
        exact hk

/-- C3 witness: the amended theorem at a concrete one-record store. -/
theorem C3_witness :
    (save c3Hb c3small (c3id 2) 0 meta0 (some [1])).2.index.length ≤
      indexCap ∧
    kvGet (save c3Hb c3small (c3id 2) 0 meta0 (some [1])).2.records (c3id 1)
      = some (c3rec 1) := by
  have h := C3_theorem c3Hb c3small (c3id 2) 0 meta0 (some [1])
    (by simp [c3small, indexCap])
  exact ⟨h.1, h.2 (c3id 1) (c3rec 1)
    (fun he => absurd (c3id_inj he) (by omega))
    (by simp [c3small, kvGet])⟩

/-- C8 (amended): for every NON-EMPTY blob `B` saved into a well-formed
store (every persisted payload decodes to bytes matching its stored
digest) under a collision-free byte digest, rebuilding the blob from the
record loaded under save's returned id gives back exactly the saved
bytes whenever that record retains an encoded payload; a record carrying
no encoded payload rebuilds to `none`, and so does one whose stored
payload is the empty string — the truthiness guard `if(record.pdfBase64)`
treats it as absent (that is precisely what saving an empty blob stores,
since `btoa('')` is `''`). -/
theorem C8_theorem (Hb : List Nat → String) (st : StoreState)
    (freshId : String) (now : Nat) (meta : StoreMeta) (B : List Nat)
    (hinj : ∀ x y : List Nat, allBytes x → allBytes y → Hb x = Hb y → x = y)
    (hwf : storeWF Hb st) (hB : allBytes B) (hBne : B ≠ []) :
    (∀ id r, (save Hb st freshId now meta (some B)).1 = some id →
       kvGet (save Hb st freshId now meta (some B)).2.records id = some r →
       ∀ s, r.pdfBase64 = some s → rebuildPdf r = some B) ∧
    (∀ r : StoreRecord, r.pdfBase64 = none → rebuildPdf r = none) ∧
    (∀ (r : StoreRecord) (s : String), r.pdfBase64 = some s →
       s.data = [] → rebuildPdf r = none) := by
  refine ⟨?_, fun r h => by simp [rebuildPdf, h],
    fun r s hs hd => by simp [rebuildPdf, hs, hd]⟩
  intro id r hid hr s hs
  cases hscan : scanDup st.records st.index (Hb B) with
  | some rid =>
    have heq : save Hb st freshId now meta (some B) = (some rid, st) := by
      simp [save, hscan]
    rw [heq] at hid hr
    have hidr : rid = id := Option.some.inj hid
    subst hidr
    obtain ⟨r2, hk2, hsha2⟩ := scanDup_some st.records st.index (Hb B)
      rid hscan
    have hrr : r2 = r := by
      rw [hk2] at hr
      exact Option.some.inj hr
    subst hrr
    obtain ⟨bs, hdec, hbs, hhb⟩ := hwf rid r2 hk2 s hs
    have hbB : bs = B := by
      apply hinj bs B hbs hB
      rw [hhb, hsha2]
    have hsd : ¬ s.data = [] := by
      intro he
      rw [he] at hdec
      have hnil : bs = [] := by
        have hd0 : b64dec ([] : List Char) = some ([] : List Nat) := rfl
        rw [hd0] at hdec
        exact (Option.some.inj hdec).symm
      exact hBne (by rw [← hbB]; exact hnil)
    simp only [rebuildPdf, hs, if_neg hsd, hdec, hbB]
  | none =>
    have heq : save Hb st freshId now meta (some B) = (some freshId,
        { records := (freshId, mkStoreRecord Hb freshId now meta B) ::
            st.records,
          index := if (freshId :: st.index).length > indexCap
            then (freshId :: st.index).take indexCap
            else freshId :: st.index }) := by
      simp [save, hscan]
    rw [heq] at hid hr
    have hidr : freshId = id := Option.some.inj hid
    subst hidr
    rw [kvGet, if_pos rfl] at hr
    have hrr : mkStoreRecord Hb freshId now meta B = r :=
      Option.some.inj hr
    subst hrr
    simp only [rebuildPdf, hs]
    have hsval : (String.mk (b64enc B) : String) = s := by
      have : (mkStoreRecord Hb freshId now meta B).pdfBase64 =
          some (String.mk (b64enc B)) := rfl
      rw [this] at hs
      exact Option.some.inj hs
    rw [← hsval]
    have hne : ¬ (String.mk (b64enc B)).data = [] := b64enc_ne_nil B hBne
    rw [if_neg hne]
    exact b64_roundtrip B hB

/-- C8 witness: saving the blob `[1,2,3]` into the empty store with the
base64 digest stand-in and rebuilding from the loaded record returns the
original bytes. -/
theorem C8_witness :
    (save b64H emptyStore "CR_1" 0 meta0 (some [1, 2, 3])).1 = some "CR_1" ∧
    kvGet (save b64H emptyStore "CR_1" 0 meta0 (some [1, 2, 3])).2.records
      "CR_1" = some c8rec ∧
    rebuildPdf c8rec = some [1, 2, 3] := by
  have hinj : ∀ x y : List Nat, allBytes x → allBytes y →
      b64H x = b64H y → x = y := by
    intro x y hx hy h
    have h2 : b64enc x = b64enc y := congrArg String.data h
    have h3 := b64_roundtrip x hx
    rw [h2, b64_roundtrip y hy] at h3
    exact (Option.some.inj h3).symm
  have hwf : storeWF b64H emptyStore := by
    intro id r h
    simp [emptyStore, kvGet] at h
  have h1 : (save b64H emptyStore "CR_1" 0 meta0 (some [1, 2, 3])).1 =
      some "CR_1" := by
    simp [save, scanDup, emptyStore]
  have h2 : kvGet (save b64H emptyStore "CR_1" 0 meta0
      (some [1, 2, 3])).2.records "CR_1" = some c8rec := by
    simp [save, scanDup, emptyStore, kvGet, c8rec]
  have hB3 : allBytes [1, 2, 3] := by
    intro x hx
    simp at hx
    omega
  refine ⟨h1, h2, ?_⟩
  exact (C8_theorem b64H emptyStore "CR_1" 0 meta0 [1, 2, 3] hinj hwf
    hB3 (by simp)).1 "CR_1" c8rec h1 h2 (String.mk (b64enc [1, 2, 3])) rfl

/-- C8 counterexample: saving the EMPTY blob succeeds — an empty
`ArrayBuffer` is truthy, so it passes the `if(!arrayBuffer)` guard — and
persists a record that carries an encoded payload (`btoa('')` stores the
empty string), yet `rebuildPdf` on that record returns `none` instead of
the saved bytes: the truthiness guard `if(record.pdfBase64)` treats the
empty string as an absent payload, so the claimed round trip fails at
the empty blob. -/
theorem C8_counterexample :
    (save b64H emptyStore "CR_0" 0 meta0 (some [])).1 = some "CR_0" ∧
    kvGet (save b64H emptyStore "CR_0" 0 meta0 (some [])).2.records "CR_0"
      = some (mkStoreRecord b64H "CR_0" 0 meta0 []) ∧
    ¬ (mkStoreRecord b64H "CR_0" 0 meta0 []).pdfBase64 = none ∧
    rebuildPdf (mkStoreRecord b64H "CR_0" 0 meta0 []) = none := by
  refine ⟨?_, ?_, ?_, ?_⟩
  · simp [save, scanDup, emptyStore]
  · simp [save, scanDup, emptyStore, kvGet]
  · simp [mkStoreRecord]
  · simp [rebuildPdf, mkStoreRecord, b64enc]

end SCGS
